import Mathlib

/-!
Shallow embedding of the rheology solver core (`src/App.jsx`).

JavaScript numbers are modelled as exact rationals extended with the
IEEE special values `+Infinity`, `-Infinity` and `NaN`; the arithmetic
helpers below implement the JS semantics on these values.  The solver
functions (`impedance`, `stehfestCoeffs`, `factorial`, `inverseLaplace`,
`creepAtTime`, `relaxAtTime`, `instantElasticStrain`,
`instantElasticStress`, `computeCreep`, `computeRelaxation`) are direct
translations of the corresponding source functions.
-/

namespace Rheology

/-- A JavaScript number: a finite rational, `+Infinity`, `-Infinity`, or `NaN`. -/
inductive JS where
  | fin (q : ℚ)
  | inf
  | ninf
  | nan
deriving DecidableEq, Repr

/-- JS addition on extended values. -/
def jsAdd : JS → JS → JS
  | JS.fin a, JS.fin b => JS.fin (a + b)
  | JS.fin _, JS.inf => JS.inf
  | JS.fin _, JS.ninf => JS.ninf
  | JS.inf, JS.fin _ => JS.inf
  | JS.ninf, JS.fin _ => JS.ninf
  | JS.inf, JS.inf => JS.inf
  | JS.ninf, JS.ninf => JS.ninf
  | JS.inf, JS.ninf => JS.nan
  | JS.ninf, JS.inf => JS.nan
  | JS.nan, _ => JS.nan
  | _, JS.nan => JS.nan

/-- JS negation. -/
def jsNeg : JS → JS
  | JS.fin q => JS.fin (-q)
  | JS.inf => JS.ninf
  | JS.ninf => JS.inf
  | JS.nan => JS.nan

/-- JS subtraction. -/
def jsSub (a b : JS) : JS := jsAdd a (jsNeg b)

/-- JS multiplication on extended values. -/
def jsMul : JS → JS → JS
  | JS.fin a, JS.fin b => JS.fin (a * b)
  | JS.fin a, JS.inf => if 0 < a then JS.inf else if a < 0 then JS.ninf else JS.nan
  | JS.fin a, JS.ninf => if 0 < a then JS.ninf else if a < 0 then JS.inf else JS.nan
  | JS.inf, JS.fin b => if 0 < b then JS.inf else if b < 0 then JS.ninf else JS.nan
  | JS.ninf, JS.fin b => if 0 < b then JS.ninf else if b < 0 then JS.inf else JS.nan
  | JS.inf, JS.inf => JS.inf
  | JS.inf, JS.ninf => JS.ninf
  | JS.ninf, JS.inf => JS.ninf
  | JS.ninf, JS.ninf => JS.inf
  | JS.nan, _ => JS.nan
  | _, JS.nan => JS.nan

/-- JS division on extended values (division of a nonzero finite value by
`0` yields a signed infinity, as with IEEE positive zero). -/
def jsDiv : JS → JS → JS
  | JS.fin a, JS.fin b =>
      if b = 0 then (if 0 < a then JS.inf else if a < 0 then JS.ninf else JS.nan)
      else JS.fin (a / b)
  | JS.fin _, JS.inf => JS.fin 0
  | JS.fin _, JS.ninf => JS.fin 0
  | JS.inf, JS.fin b => if 0 ≤ b then JS.inf else JS.ninf
  | JS.ninf, JS.fin b => if 0 ≤ b then JS.ninf else JS.inf
  | _, _ => JS.nan

/-- JS `Math.abs`. -/
def jsAbs : JS → JS
  | JS.fin q => JS.fin |q|
  | JS.inf => JS.inf
  | JS.ninf => JS.inf
  | JS.nan => JS.nan

/-- JS `<` comparison (any comparison with `NaN` is false). -/
def jsLt : JS → JS → Bool
  | JS.fin a, JS.fin b => decide (a < b)
  | JS.fin _, JS.inf => true
  | JS.ninf, JS.fin _ => true
  | JS.ninf, JS.inf => true
  | _, _ => false

/-- A node of the rheological model tree (`spring`, `dashpot`, `series`,
`parallel` in the source). -/
inductive Node where
  | spring (E : ℚ)
  | dashpot (eta : ℚ)
  | series (children : List Node)
  | parallel (children : List Node)
deriving Repr

/-- The `1e-30` magnitude threshold of the series short-circuit guard. -/
def eps30 : ℚ := 1 / 10 ^ 30

mutual

/-- Laplace-domain impedance of a node at frequency `s` (`impedance` in the
source).  Springs return `E`, dashpots `η·s`; series nodes accumulate the
compliance sum with the `1e-30` short-circuit guard; parallel nodes sum
child impedances. -/
def impedance : Node → ℚ → JS
  | Node.spring E, _ => JS.fin E
  | Node.dashpot eta, s => JS.fin (eta * s)
  | Node.series children, s =>
      match seriesCompliance children s (JS.fin 0) with
      | none => JS.fin 0
      | some tc => if tc = JS.fin 0 then JS.inf else jsDiv (JS.fin 1) tc
  | Node.parallel children, s => parallelSum children s (JS.fin 0)

/-- The series loop of `impedance`: folds `totalCompliance += 1/z` over the
children, aborting with `none` (the `return 0` short-circuit) as soon as a
child impedance has magnitude below `1e-30`. -/
def seriesCompliance : List Node → ℚ → JS → Option JS
  | [], _, acc => some acc
  | c :: rest, s, acc =>
      let z := impedance c s
      if jsLt (jsAbs z) (JS.fin eps30) then none
      else seriesCompliance rest s (jsAdd acc (jsDiv (JS.fin 1) z))

/-- The parallel loop of `impedance`: folds `totalZ += impedance(child, s)`. -/
def parallelSum : List Node → ℚ → JS → JS
  | [], _, acc => acc
  | c :: rest, s, acc => parallelSum rest s (jsAdd acc (impedance c s))

end

/-- The iterative factorial loop of the source's `factorial` (`r = 1; for
i = 2..n: r *= i`), as a rational-valued product. -/
def factAux : ℕ → ℚ
  | 0 => 1
  | 1 => 1
  | n + 2 => factAux (n + 1) * (n + 2)

/-- Function `factorial` from the source: `Infinity` for negative arguments, `1` for
`n ≤ 1`, otherwise the iterative product. -/
def factorial (n : ℤ) : JS :=
  if n < 0 then JS.inf
  else if n ≤ 1 then JS.fin 1
  else JS.fin (factAux n.toNat)

/-- One term of the inner Stehfest sum: `k^(N/2)·(2k)! / ((N/2−k)!·k!·(k−1)!·(i−k)!·(2k−i)!)`,
with `N2 = N/2`, in JS arithmetic exactly as the source computes it. -/
def stehfestTerm (N2 i k : ℕ) : JS :=
  jsDiv (jsMul (JS.fin ((k : ℚ) ^ N2)) (factorial (2 * k)))
    (jsMul (jsMul (jsMul (jsMul (factorial ((N2 : ℤ) - k)) (factorial k))
      (factorial ((k : ℤ) - 1))) (factorial ((i : ℤ) - k))) (factorial (2 * (k : ℤ) - i)))

/-- Function `stehfestCoeffs` from the source: for `i = 1..N`, sum `stehfestTerm` for
`k` from `⌊(i+1)/2⌋` to `min i (N/2)` and multiply by `(-1)^(i+N/2)`. -/
def stehfestCoeffs (N : ℕ) : List JS :=
  (List.range N).map (fun idx =>
    let i := idx + 1
    let kMin := (i + 1) / 2
    let kMax := min i (N / 2)
    let sum := (List.range' kMin (kMax + 1 - kMin)).foldl
      (fun acc k => jsAdd acc (stehfestTerm (N / 2) i k)) (JS.fin 0)
    jsMul (JS.fin ((-1 : ℚ) ^ (i + N / 2))) sum)

/-- Constant `STEHFEST_N = 12` from the source. -/
def STEHFEST_N : ℕ := 12

/-- The precomputed coefficient table `coeffs = stehfestCoeffs(STEHFEST_N)`. -/
def coeffs : List JS := stehfestCoeffs STEHFEST_N

/-- Constant `Math.LN2`: the IEEE double closest to `ln 2`, as an exact rational. -/
def LN2 : ℚ := 6243314768165359 / 9007199254740992

/-- The summation loop of `inverseLaplace`: for each coefficient `V` at index
`i` accumulate `sum += V * F((i+1)·c)`. -/
def stehfestSum (F : ℚ → JS) (c : ℚ) : ℕ → List JS → JS → JS
  | _, [], acc => acc
  | i, v :: rest, acc =>
      stehfestSum F c (i + 1) rest (jsAdd acc (jsMul v (F (((i : ℚ) + 1) * c))))

/-- Function `inverseLaplace` from the source: `0` for `t ≤ 0`, otherwise the Stehfest
sum scaled by `c = LN2 / t`. -/
def inverseLaplace (F : ℚ → JS) (t : ℚ) : JS :=
  if t ≤ 0 then JS.fin 0
  else jsMul (stehfestSum F (LN2 / t) 0 coeffs (JS.fin 0)) (JS.fin (LN2 / t))

/-- The integrand handed to `inverseLaplace` by `creepAtTime` for `t > 0`:
`z === 0 ? 1e30 : sigma0 / (s * z)`. -/
def creepIntegrand (model : Node) (sigma0 : ℚ) (s : ℚ) : JS :=
  let z := impedance model s
  if z = JS.fin 0 then JS.fin (10 ^ 30) else jsDiv (JS.fin sigma0) (jsMul (JS.fin s) z)

/-- The integrand handed to `inverseLaplace` by `relaxAtTime` for `t > 0`:
`(eps0 * impedance(model, s)) / s`. -/
def relaxIntegrand (model : Node) (eps0 : ℚ) (s : ℚ) : JS :=
  jsDiv (jsMul (JS.fin eps0) (impedance model s)) (JS.fin s)

/-- Function `creepAtTime` from the source. -/
def creepAtTime (model : Node) (t sigma0 : ℚ) : JS :=
  if t ≤ 0 then
    let z0 := impedance model (10 ^ 12)
    if z0 = JS.fin 0 then JS.fin 0 else jsDiv (JS.fin sigma0) z0
  else inverseLaplace (fun s => creepIntegrand model sigma0 s) t

/-- Function `relaxAtTime` from the source. -/
def relaxAtTime (model : Node) (t eps0 : ℚ) : JS :=
  if t ≤ 0 then jsMul (JS.fin eps0) (impedance model (10 ^ 12))
  else inverseLaplace (fun s => relaxIntegrand model eps0 s) t

/-- Function `instantElasticStrain` from the source: probe the impedance at `s = 1e15`,
return `0` when it is `0`, otherwise `sigma0 / zInf`. -/
def instantElasticStrain (model : Node) (sigma0 : ℚ) : JS :=
  let zInf := impedance model (10 ^ 15)
  if zInf = JS.fin 0 then JS.fin 0 else jsDiv (JS.fin sigma0) zInf

/-- Function `instantElasticStress` from the source: `eps0 * impedance(model, 1e15)`. -/
def instantElasticStress (model : Node) (eps0 : ℚ) : JS :=
  jsMul (JS.fin eps0) (impedance model (10 ^ 15))

/-- Round a rational to 6 decimal digits, modelling
`parseFloat(x.toFixed(6))`. -/
def round6 (q : ℚ) : ℚ := (round (q * 10 ^ 6) : ℚ) / 10 ^ 6

/-- Rounding `parseFloat(x.toFixed(6))` on a JS value: rounds finite values, fixes
the special values. -/
def jsRound6 : JS → JS
  | JS.fin q => JS.fin (round6 q)
  | z => z

/-- One emitted sample: `{t, value, load}` from the source. -/
structure SampledPoint where
  t : ℚ
  value : JS
  load : ℚ
deriving DecidableEq, Repr

/-- The regular grid point appended at step `i` of the sampler loops:
time `(i/nPoints)·tMax`, with the Boltzmann-superposed value and zero load
when `tRemoval` is set and `t > tRemoval`, the base value and full load
otherwise.  `R` is the base response (`creepAtTime` or `relaxAtTime`
applied to the model and magnitude) and `mag` the full load magnitude. -/
def regularPoint (R : ℚ → JS) (mag tMax : ℚ) (nPoints : ℕ)
    (tRemoval : Option ℚ) (i : ℕ) : SampledPoint :=
  let t : ℚ := (i : ℚ) / (nPoints : ℚ) * tMax
  match tRemoval with
  | some t1 =>
      if t1 < t then
        { t := round6 t, value := jsRound6 (jsSub (R t) (R (t - t1))), load := 0 }
      else
        { t := round6 t, value := jsRound6 (R t), load := mag }
  | none => { t := round6 t, value := jsRound6 (R t), load := mag }

/-- The points emitted by iteration `i` of the sampler loop: when `tRemoval`
is set, `i > 0` and the step straddles `tRemoval`, the two synthetic points
at `t = tRemoval` are emitted first, and the regular point is suppressed
exactly when `|t − tRemoval| < (tMax/nPoints)·0.5` (the `continue`). -/
def sampleStep (R : ℚ → JS) (instantDrop : JS) (mag tMax : ℚ) (nPoints : ℕ)
    (tRemoval : Option ℚ) (i : ℕ) : List SampledPoint :=
  let t : ℚ := (i : ℚ) / (nPoints : ℚ) * tMax
  match tRemoval with
  | some t1 =>
      if 0 < i ∧ ((i : ℚ) - 1) / (nPoints : ℚ) * tMax < t1 ∧ t1 ≤ t then
        let valBefore := R t1
        let p1 : SampledPoint := { t := round6 t1, value := jsRound6 valBefore, load := mag }
        let p2 : SampledPoint :=
          { t := round6 t1, value := jsRound6 (jsSub valBefore instantDrop), load := 0 }
        if |t - t1| < tMax / (nPoints : ℚ) * (1 / 2) then [p1, p2]
        else [p1, p2, regularPoint R mag tMax nPoints tRemoval i]
      else [regularPoint R mag tMax nPoints tRemoval i]
  | none => [regularPoint R mag tMax nPoints tRemoval i]

/-- The common sampler loop of `computeCreep` and `computeRelaxation`:
iterations `i = 0..nPoints`, each contributing `sampleStep`. -/
def sampleSeries (R : ℚ → JS) (instantDrop : JS) (mag tMax : ℚ) (nPoints : ℕ)
    (tRemoval : Option ℚ) : List SampledPoint :=
  (List.range (nPoints + 1)).flatMap (sampleStep R instantDrop mag tMax nPoints tRemoval)

/-- Function `computeCreep` from the source. -/
def computeCreep (model : Node) (tMax : ℚ) (nPoints : ℕ) (sigma0 : ℚ)
    (tRemoval : Option ℚ) : List SampledPoint :=
  sampleSeries (fun t => creepAtTime model t sigma0) (instantElasticStrain model sigma0)
    sigma0 tMax nPoints tRemoval

/-- Function `computeRelaxation` from the source. -/
def computeRelaxation (model : Node) (tMax : ℚ) (nPoints : ℕ) (eps0 : ℚ)
    (tRemoval : Option ℚ) : List SampledPoint :=
  sampleSeries (fun t => relaxAtTime model t eps0) (instantElasticStress model eps0)
    eps0 tMax nPoints tRemoval

/-! ### Spec-side reference definitions -/

/-- One rational term of the Stehfest sum, written with `Nat.factorial` as in
the spec formula `k^(N/2)·(2k)! / ((N/2−k)!·k!·(k−1)!·(i−k)!·(2k−i)!)`
(`N2 = N/2`; all factorial arguments are nonnegative on the summation
range). -/
def stehfestTermQ (N2 i k : ℕ) : ℚ :=
  ((k : ℚ) ^ N2 * (Nat.factorial (2 * k) : ℚ)) /
    ((Nat.factorial (N2 - k) : ℚ) * (Nat.factorial k : ℚ) * (Nat.factorial (k - 1) : ℚ) *
      (Nat.factorial (i - k) : ℚ) * (Nat.factorial (2 * k - i) : ℚ))

/-- The claimed coefficient formula exactly as the spec words it: the sum over
`k` starts at `⌈(i+1)/2⌉` (which is `(i+2)/2` in natural division). -/
def specStehfestV (N i : ℕ) : ℚ :=
  (-1 : ℚ) ^ (i + N / 2) *
    ∑ k in Finset.Icc ((i + 2) / 2) (min i (N / 2)), stehfestTermQ (N / 2) i k

/-- The coefficient formula with the lower summation bound the code actually
uses, `⌊(i+1)/2⌋` (natural division `(i+1)/2`). -/
def amendedStehfestV (N i : ℕ) : ℚ :=
  (-1 : ℚ) ^ (i + N / 2) *
    ∑ k in Finset.Icc ((i + 1) / 2) (min i (N / 2)), stehfestTermQ (N / 2) i k

/-- Modelled from the spec, §4.1: the impedance rules as the spec words them
(spring `E`; dashpot `η·s`; series: `0` if any child impedance has magnitude
below `1e-30`, else `+∞` when the compliance sum is exactly `0`, else its
reciprocal; parallel: sum of child impedances).  Used as the reference side
of the refinement claim about `impedance`. -/
def specImpedance : Node → ℚ → JS
  | Node.spring E, _ => JS.fin E
  | Node.dashpot eta, s => JS.fin (eta * s)
  | Node.series children, s =>
      let zs := children.attach.map (fun c => specImpedance c.1 s)
      if zs.any (fun z => jsLt (jsAbs z) (JS.fin eps30)) then JS.fin 0
      else
        let tc := (zs.map (fun z => jsDiv (JS.fin 1) z)).foldr jsAdd (JS.fin 0)
        if tc = JS.fin 0 then JS.inf else jsDiv (JS.fin 1) tc
  | Node.parallel children, s =>
      (children.attach.map (fun c => specImpedance c.1 s)).foldr jsAdd (JS.fin 0)
decreasing_by all_goals (have hsz := List.sizeOf_lt_of_mem c.2; simp; omega)

/-- Positivity of all element parameters in a tree (`E > 0`, `η > 0`). -/
def posParams : Node → Bool
  | Node.spring E => decide (0 < E)
  | Node.dashpot eta => decide (0 < eta)
  | Node.series children => children.attach.all (fun c => posParams c.1)
  | Node.parallel children => children.attach.all (fun c => posParams c.1)
decreasing_by all_goals (have hsz := List.sizeOf_lt_of_mem c.2; simp; omega)

/-- A JS value that is a nonnegative finite rational or `+Infinity`. -/
def jsNonnegOrInf (z : JS) : Prop := (∃ q : ℚ, z = JS.fin q ∧ 0 ≤ q) ∨ z = JS.inf

/-- The finite part of a JS value (`0` for the special values). -/
def jsToQ : JS → ℚ
  | JS.fin q => q
  | _ => 0

/-- The `i`-th Stehfest weight of the configured table, as a rational. -/
def Vq (i : ℕ) : ℚ := jsToQ (coeffs.getD i (JS.fin 0))

/-- A model whose impedance is `0` at every `s`: a series chain shorted by a
zero-stiffness spring. -/
def model0 : Node := Node.series [Node.spring 0]

/-! ### Arithmetic lemmas for the JS value model -/

theorem jsAdd_fin (a b : ℚ) : jsAdd (JS.fin a) (JS.fin b) = JS.fin (a + b) := rfl

theorem jsMul_fin (a b : ℚ) : jsMul (JS.fin a) (JS.fin b) = JS.fin (a * b) := rfl

theorem jsSub_fin (a b : ℚ) : jsSub (JS.fin a) (JS.fin b) = JS.fin (a - b) := by
  simp [jsSub, jsNeg, jsAdd, sub_eq_add_neg]

theorem jsDiv_fin (a b : ℚ) (hb : b ≠ 0) :
    jsDiv (JS.fin a) (JS.fin b) = JS.fin (a / b) := by
  simp [jsDiv, hb]

theorem jsAdd_zero_left (z : JS) : jsAdd (JS.fin 0) z = z := by
  cases z <;> simp [jsAdd]

theorem jsAdd_zero_right (z : JS) : jsAdd z (JS.fin 0) = z := by
  cases z <;> simp [jsAdd]

theorem jsAdd_assoc (a b c : JS) : jsAdd (jsAdd a b) c = jsAdd a (jsAdd b c) := by
  cases a <;> cases b <;> cases c <;> simp [jsAdd, add_assoc]

/-! ### The factorial helper -/

theorem factAux_eq (n : ℕ) : factAux n = (Nat.factorial n : ℚ) := by
  induction n with
  | zero => simp [factAux, Nat.factorial]
  | succ m ih =>
      cases m with
      | zero => simp [factAux, Nat.factorial]
      | succ m' =>
          have ih' : factAux (m' + 1) = (Nat.factorial (m' + 1) : ℚ) := by
            simpa using ih
          simp [factAux, ih', Nat.factorial_succ]
          ring

/-- Evaluating `factorial` on a nonnegative integer argument is the usual factorial. -/
theorem factorial_ofNonneg (z : ℤ) (hz : 0 ≤ z) :
    factorial z = JS.fin (Nat.factorial z.toNat : ℚ) := by
  unfold factorial
  rcases lt_or_le z 1 with h1 | h1
  · have hz0 : z = 0 := le_antisymm (by omega) hz
    subst hz0
    simp [Nat.factorial]
  · have : ¬ z < 0 := by omega
    rcases eq_or_lt_of_le h1 with h | h
    · simp [← h, Nat.factorial]
    · have h2 : ¬ z ≤ 1 := by omega
      simp [this, h2, factAux_eq]

/-! ### Sums over the `range'` loop -/

theorem sum_map_range' (g : ℕ → ℚ) :
    ∀ (len a : ℕ), ((List.range' a len).map g).sum = ∑ k in Finset.Ico a (a + len), g k
  | 0, a => by simp
  | len + 1, a => by
      have ih := sum_map_range' g len (a + 1)
      have hlt : a < a + (len + 1) := by omega
      rw [Finset.sum_eq_sum_Ico_succ_bot hlt]
      simp only [List.range', List.map_cons, List.sum_cons, ih]
      have : a + 1 + len = a + (len + 1) := by omega
      rw [this]

/-- Folding `jsAdd` of pointwise-finite values over a list of naturals. -/
theorem foldl_jsAdd_fin (g : ℕ → JS) (gq : ℕ → ℚ) :
    ∀ (l : List ℕ) (a : ℚ), (∀ k ∈ l, g k = JS.fin (gq k)) →
      l.foldl (fun acc k => jsAdd acc (g k)) (JS.fin a) = JS.fin (a + (l.map gq).sum)
  | [], a, _ => by simp
  | k :: rest, a, h => by
      have hk : g k = JS.fin (gq k) := h k (List.mem_cons_self k rest)
      have hrest : ∀ x ∈ rest, g x = JS.fin (gq x) := fun x hx => h x (List.mem_cons_of_mem _ hx)
      simp only [List.foldl_cons, hk, jsAdd_fin]
      rw [foldl_jsAdd_fin g gq rest (a + gq k) hrest]
      simp [add_assoc]

/-! ### The Stehfest coefficient formula -/

/-- On the summation range the JS term agrees with the rational term. -/
theorem stehfestTerm_fin (N2 i k : ℕ) (hk1 : 1 ≤ k) (hkN : k ≤ N2) (hki : k ≤ i)
    (h2k : i ≤ 2 * k) : stehfestTerm N2 i k = JS.fin (stehfestTermQ N2 i k) := by
  have t1 : (2 * (k : ℤ)).toNat = 2 * k := by omega
  have e1 : factorial (2 * (k : ℤ)) = JS.fin (Nat.factorial (2 * k) : ℚ) := by
    rw [factorial_ofNonneg _ (by omega), t1]
  have t2 : ((N2 : ℤ) - k).toNat = N2 - k := by omega
  have e2 : factorial ((N2 : ℤ) - k) = JS.fin (Nat.factorial (N2 - k) : ℚ) := by
    rw [factorial_ofNonneg _ (by omega), t2]
  have t3 : ((k : ℤ)).toNat = k := by omega
  have e3 : factorial (k : ℤ) = JS.fin (Nat.factorial k : ℚ) := by
    rw [factorial_ofNonneg _ (by omega), t3]
  have t4 : ((k : ℤ) - 1).toNat = k - 1 := by omega
  have e4 : factorial ((k : ℤ) - 1) = JS.fin (Nat.factorial (k - 1) : ℚ) := by
    rw [factorial_ofNonneg _ (by omega), t4]
  have t5 : ((i : ℤ) - k).toNat = i - k := by omega
  have e5 : factorial ((i : ℤ) - k) = JS.fin (Nat.factorial (i - k) : ℚ) := by
    rw [factorial_ofNonneg _ (by omega), t5]
  have t6 : (2 * (k : ℤ) - i).toNat = 2 * k - i := by omega
  have e6 : factorial (2 * (k : ℤ) - i) = JS.fin (Nat.factorial (2 * k - i) : ℚ) := by
    rw [factorial_ofNonneg _ (by omega), t6]
  have hden : ((Nat.factorial (N2 - k) : ℚ) * (Nat.factorial k : ℚ) * (Nat.factorial (k - 1) : ℚ) *
      (Nat.factorial (i - k) : ℚ) * (Nat.factorial (2 * k - i) : ℚ)) ≠ 0 := by
    have p1 := Nat.factorial_pos (N2 - k)
    have p2 := Nat.factorial_pos k
    have p3 := Nat.factorial_pos (k - 1)
    have p4 := Nat.factorial_pos (i - k)
    have p5 := Nat.factorial_pos (2 * k - i)
    positivity
  unfold stehfestTerm stehfestTermQ
  rw [e1, e2, e3, e4, e5, e6]
  rw [jsMul_fin, jsMul_fin, jsMul_fin, jsMul_fin, jsMul_fin]
  rw [jsDiv_fin _ _ hden]

/-- The general form of the code's Stehfest coefficients: for even `N` and
`1 ≤ i ≤ N`, entry `i - 1` of `stehfestCoeffs N` is the finite rational
`amendedStehfestV N i` (inner sum starting at `⌊(i+1)/2⌋`). -/
theorem stehfestCoeffs_getD (N i : ℕ) (hN : N % 2 = 0) (h1 : 1 ≤ i) (h2 : i ≤ N) :
    (stehfestCoeffs N).getD (i - 1) (JS.fin 0) = JS.fin (amendedStehfestV N i) := by
  have hidx : i - 1 < N := by omega
  unfold stehfestCoeffs
  rw [List.getD_eq_getElem?_getD, List.getElem?_map, List.getElem?_range hidx]
  simp only [Option.map_some', Option.getD_some]
  have hi : i - 1 + 1 = i := by omega
  rw [hi]
  set kMin := (i + 1) / 2 with hkMin
  set kMax := min i (N / 2) with hkMax
  have hminmax : kMin ≤ kMax + 1 := by omega
  have hfold :
      (List.range' kMin (kMax + 1 - kMin)).foldl
        (fun acc k => jsAdd acc (stehfestTerm (N / 2) i k)) (JS.fin 0)
      = JS.fin (((List.range' kMin (kMax + 1 - kMin)).map (stehfestTermQ (N / 2) i)).sum) := by
    rw [foldl_jsAdd_fin (stehfestTerm (N / 2) i) (stehfestTermQ (N / 2) i)]
    · rw [zero_add]
    · intro k hk
      have hmem := List.mem_range'_1.mp hk
      exact stehfestTerm_fin (N / 2) i k (by omega) (by omega) (by omega) (by omega)
  rw [hfold, sum_map_range']
  have hout : kMin + (kMax + 1 - kMin) = kMax + 1 := by omega
  rw [hout, Nat.Ico_succ_right, jsMul_fin]
  rfl

/-- Table `coeffs` has one entry per Stehfest weight. -/
theorem coeffs_length : coeffs.length = STEHFEST_N := by
  simp [coeffs, stehfestCoeffs]

/-- Every entry of the default coefficient table is the finite rational `Vq j`. -/
theorem coeffs_getD_fin (j : ℕ) : coeffs.getD j (JS.fin 0) = JS.fin (Vq j) := by
  by_cases hj : j < STEHFEST_N
  · have h := stehfestCoeffs_getD STEHFEST_N (j + 1) rfl (by omega)
      (by simp only [STEHFEST_N] at hj ⊢; omega)
    have hco : coeffs.getD j (JS.fin 0) = JS.fin (amendedStehfestV STEHFEST_N (j + 1)) := by
      simpa using h
    unfold Vq
    rw [hco]
    rfl
  · have hlen : coeffs.length ≤ j := by
      rw [coeffs_length]
      omega
    have hdef : coeffs.getD j (JS.fin 0) = JS.fin 0 := by
      rw [List.getD_eq_getElem?_getD, List.getElem?_eq_none hlen]
      rfl
    unfold Vq
    rw [hdef]
    rfl

/-- The per-element unrolling of the `inverseLaplace` accumulation loop over a
table of finite coefficients. -/
theorem stehfestSum_fin (f : ℚ → ℚ) (F : ℚ → JS) (hF : ∀ s, F s = JS.fin (f s)) (c : ℚ) :
    ∀ (l : List JS) (w : ℕ → ℚ), (∀ j, l.getD j (JS.fin 0) = JS.fin (w j)) →
      ∀ (k0 : ℕ) (a : ℚ),
        stehfestSum F c k0 l (JS.fin a)
          = JS.fin (a + ∑ j in Finset.range l.length, w j * f (((k0 : ℚ) + j + 1) * c))
  | [], _, _, _, a => by simp [stehfestSum]
  | v :: rest, w, hw, k0, a => by
      have hv : v = JS.fin (w 0) := hw 0
      have hw' : ∀ j, rest.getD j (JS.fin 0) = JS.fin (w (j + 1)) := fun j => hw (j + 1)
      have ih := stehfestSum_fin f F hF c rest (fun j => w (j + 1)) hw' (k0 + 1)
        (a + w 0 * f (((k0 : ℚ) + 1) * c))
      simp only [stehfestSum, hv, hF, jsMul_fin]
      rw [jsAdd_fin, ih]
      congr 1
      rw [List.length_cons, Finset.sum_range_succ']
      have hsum :
          ∑ j in Finset.range rest.length, w (j + 1) * f ((((k0 + 1 : ℕ) : ℚ) + j + 1) * c)
            = ∑ j in Finset.range rest.length,
                w (j + 1) * f (((k0 : ℚ) + (((j : ℕ) + 1 : ℕ) : ℚ) + 1) * c) := by
        apply Finset.sum_congr rfl
        intro j _
        have harg : (((k0 + 1 : ℕ) : ℚ) + j + 1) * c
            = ((k0 : ℚ) + (((j : ℕ) + 1 : ℕ) : ℚ) + 1) * c := by
          push_cast
          ring
        rw [harg]
      rw [hsum]
      have h0 : ((k0 : ℚ) + ((0 : ℕ) : ℚ) + 1) * c = ((k0 : ℚ) + 1) * c := by
        push_cast
        ring
      rw [h0]
      ring

/-- Entry `1` of the default table together with the exact values of the
sum-start discrepancy: the code's coefficient `V_2` is `961/60`, while the
spec's ceiling-start formula gives `16`. -/
theorem stehfest_entry_one :
    (stehfestCoeffs 12).getD 1 (JS.fin 0) = JS.fin (961 / 60) ∧ specStehfestV 12 2 = 16 := by
  constructor
  · have h := stehfestCoeffs_getD 12 2 (by norm_num) (by norm_num) (by norm_num)
    rw [h]
    have hIcc : Finset.Icc ((2 + 1) / 2) (min 2 (12 / 2)) = ({1, 2} : Finset ℕ) := by decide
    unfold amendedStehfestV
    rw [hIcc]
    rw [Finset.sum_insert (by decide), Finset.sum_singleton]
    norm_num [stehfestTermQ, Nat.factorial]
  · have hIcc : Finset.Icc ((2 + 2) / 2) (min 2 (12 / 2)) = ({2} : Finset ℕ) := by decide
    unfold specStehfestV
    rw [hIcc, Finset.sum_singleton]
    norm_num [stehfestTermQ, Nat.factorial]

/-! ### Claim C2 -/

/-- C2 counterexample: at `N = 12`, `i = 2` the code's coefficient is
`961/60`, but the spec formula (inner sum starting at `⌈(i+1)/2⌉ = 2`)
yields `16`, so the claimed formula does not match `stehfestCoeffs`. -/
theorem claimC2_counterexample :
    (stehfestCoeffs 12).getD 1 (JS.fin 0) ≠ JS.fin (specStehfestV 12 2) := by
  obtain ⟨h1, h2⟩ := stehfest_entry_one
  rw [h1, h2]
  intro h
  have h961 : (961 : ℚ) / 60 = 16 := by injection h
  norm_num at h961

/-- C2 (amended): for every even `N` and `i = 1..N`, the `i`-th coefficient of
`stehfestCoeffs N` equals `(-1)^(i+N/2)` times the sum of
`k^(N/2)·(2k)! / ((N/2−k)!·k!·(k−1)!·(i−k)!·(2k−i)!)` for `k` from
`⌊(i+1)/2⌋` (not `⌈(i+1)/2⌉`) up to `min i (N/2)`. -/
theorem claimC2_theorem (N i : ℕ) (hN : N % 2 = 0) (h1 : 1 ≤ i) (h2 : i ≤ N) :
    (stehfestCoeffs N).getD (i - 1) (JS.fin 0) = JS.fin (amendedStehfestV N i) :=
  stehfestCoeffs_getD N i hN h1 h2

/-- Witness for C2: the amended formula instantiated at `N = 12`, `i = 1`. -/
theorem claimC2_witness :
    (stehfestCoeffs 12).getD 0 (JS.fin 0) = JS.fin (amendedStehfestV 12 1) :=
  claimC2_theorem 12 1 (by norm_num) le_rfl (by norm_num)

/-! ### Claim C6 -/

/-- C6: `inverseLaplace F t` returns `0` for `t ≤ 0`; for `t > 0` and any
finite-valued `F` it returns `c · Σ V_i · F(i·c)` with `c = ln2/t` and the
twelve configured Stehfest weights `V`. -/
theorem claimC6 (F : ℚ → JS) (t : ℚ) :
    (t ≤ 0 → inverseLaplace F t = JS.fin 0) ∧
    (0 < t → ∀ f : ℚ → ℚ, (∀ s, F s = JS.fin (f s)) →
      inverseLaplace F t
        = JS.fin ((LN2 / t) * ∑ i in Finset.range STEHFEST_N,
            Vq i * f (((i : ℚ) + 1) * (LN2 / t)))) := by
  constructor
  · intro ht
    simp [inverseLaplace, ht]
  · intro ht f hf
    have hne : ¬ t ≤ 0 := not_le.mpr ht
    unfold inverseLaplace
    rw [if_neg hne]
    have hsum := stehfestSum_fin f F hf (LN2 / t) coeffs Vq coeffs_getD_fin 0 0
    rw [hsum, jsMul_fin]
    congr 1
    rw [coeffs_length, zero_add, mul_comm]
    congr 1
    apply Finset.sum_congr rfl
    intro j _
    have harg : (((0 : ℕ) : ℚ) + j + 1) * (LN2 / t) = ((j : ℚ) + 1) * (LN2 / t) := by
      push_cast
      ring
    rw [harg]

/-- Witness for C6: both branches at a concrete constant transform. -/
theorem claimC6_witness :
    inverseLaplace (fun _ => JS.fin 1) 0 = JS.fin 0 ∧
    inverseLaplace (fun _ => JS.fin 1) 1
      = JS.fin ((LN2 / 1) * ∑ i in Finset.range STEHFEST_N,
          Vq i * (fun _ : ℚ => (1 : ℚ)) (((i : ℚ) + 1) * (LN2 / 1))) :=
  ⟨(claimC6 (fun _ => JS.fin 1) 0).1 le_rfl,
   (claimC6 (fun _ => JS.fin 1) 1).2 one_pos (fun _ => 1) (fun _ => rfl)⟩

/-! ### Claim C1 -/

/-- The shorted chain has impedance `0`. -/
theorem impedance_model0 : impedance model0 1 = JS.fin 0 := by
  have habs : jsLt (jsAbs (JS.fin 0)) (JS.fin eps30) = true := by
    simp [jsAbs, jsLt, eps30]
  simp [model0, impedance, seriesCompliance, habs]

/-- C1 counterexample: at a model with `Z(1) = 0` (and `σ0 = 1`, `s = 1`) the
integrand is the sentinel `1e30` itself, not `σ0 / (s·1e30)`. -/
theorem claimC1_counterexample :
    impedance model0 1 = JS.fin 0 ∧
    creepIntegrand model0 1 1 = JS.fin (10 ^ 30) ∧
    creepIntegrand model0 1 1 ≠ jsDiv (JS.fin 1) (jsMul (JS.fin 1) (JS.fin (10 ^ 30))) := by
  have h0 := impedance_model0
  have hI : creepIntegrand model0 1 1 = JS.fin (10 ^ 30) := by
    unfold creepIntegrand
    rw [h0]
    simp
  refine ⟨h0, hI, ?_⟩
  rw [hI, jsMul_fin, jsDiv_fin _ _ (by norm_num)]
  intro h
  have hq : (10 : ℚ) ^ 30 = 1 / (1 * 10 ^ 30) := by injection h
  norm_num at hq

/-- C1 (amended): for `t > 0` the function handed to the inverse Laplace
engine is `creepIntegrand`, which is `σ0 / (s·Z(s))` whenever `Z(s) ≠ 0`,
and the sentinel value `1e30` itself (not `σ0 / (s·1e30)`) when `Z(s) == 0`. -/
theorem claimC1_theorem (m : Node) (σ0 t : ℚ) (ht : 0 < t) :
    creepAtTime m t σ0 = inverseLaplace (creepIntegrand m σ0) t ∧
    ∀ s : ℚ,
      (impedance m s ≠ JS.fin 0 →
        creepIntegrand m σ0 s = jsDiv (JS.fin σ0) (jsMul (JS.fin s) (impedance m s))) ∧
      (impedance m s = JS.fin 0 → creepIntegrand m σ0 s = JS.fin (10 ^ 30)) := by
  refine ⟨?_, fun s => ⟨fun hz => ?_, fun hz => ?_⟩⟩
  · unfold creepAtTime
    rw [if_neg (not_le.mpr ht)]
  · unfold creepIntegrand
    rw [if_neg hz]
  · unfold creepIntegrand
    rw [if_pos hz]

/-- Witness for C1: the amended statement at the shorted model, `σ0 = 1`,
`t = 1`, `s = 1`. -/
theorem claimC1_witness :
    creepAtTime model0 1 1 = inverseLaplace (creepIntegrand model0 1) 1 ∧
    creepIntegrand model0 1 1 = JS.fin (10 ^ 30) :=
  ⟨(claimC1_theorem model0 1 1 one_pos).1,
   ((claimC1_theorem model0 1 1 one_pos).2 1).2 impedance_model0⟩

/-! ### Claim C7 -/

/-- C7: for `t ≤ 0` the base creep value is `σ0 / Z(1e12)` (`0` when `Z == 0`)
and the base relaxation value is `ε0 · Z(1e12)`; the instantaneous-elastic
terms use the distinct probe `1e15`. -/
theorem claimC7 (m : Node) (t σ0 ε0 : ℚ) (ht : t ≤ 0) :
    creepAtTime m t σ0
      = (if impedance m (10 ^ 12) = JS.fin 0 then JS.fin 0
         else jsDiv (JS.fin σ0) (impedance m (10 ^ 12))) ∧
    relaxAtTime m t ε0 = jsMul (JS.fin ε0) (impedance m (10 ^ 12)) ∧
    instantElasticStrain m σ0
      = (if impedance m (10 ^ 15) = JS.fin 0 then JS.fin 0
         else jsDiv (JS.fin σ0) (impedance m (10 ^ 15))) ∧
    instantElasticStress m ε0 = jsMul (JS.fin ε0) (impedance m (10 ^ 15)) ∧
    (10 : ℚ) ^ 12 ≠ 10 ^ 15 := by
  refine ⟨?_, ?_, rfl, rfl, by norm_num⟩
  · unfold creepAtTime
    rw [if_pos ht]
  · unfold relaxAtTime
    rw [if_pos ht]

/-- Witness for C7: the base values at `t = 0` for a concrete spring. -/
theorem claimC7_witness :
    creepAtTime (Node.spring 2) 0 3
      = (if impedance (Node.spring 2) (10 ^ 12) = JS.fin 0 then JS.fin 0
         else jsDiv (JS.fin 3) (impedance (Node.spring 2) (10 ^ 12))) ∧
    relaxAtTime (Node.spring 2) 0 5 = jsMul (JS.fin 5) (impedance (Node.spring 2) (10 ^ 12)) :=
  ⟨(claimC7 (Node.spring 2) 0 3 5 le_rfl).1, (claimC7 (Node.spring 2) 0 3 5 le_rfl).2.1⟩

/-! ### Claim C5 -/

/-- Closed form of the series accumulation loop: it aborts exactly when some
child impedance is below the threshold, and otherwise returns the
accumulator plus the compliance sum of all children. -/
theorem seriesCompliance_eq (s : ℚ) :
    ∀ (l : List Node) (acc : JS),
      seriesCompliance l s acc
        = (if (l.map (fun c => impedance c s)).any (fun z => jsLt (jsAbs z) (JS.fin eps30))
           then none
           else some (jsAdd acc
             (((l.map (fun c => impedance c s)).map (fun z => jsDiv (JS.fin 1) z)).foldr
               jsAdd (JS.fin 0))))
  | [], acc => by
      simp [seriesCompliance, jsAdd_zero_right]
  | c :: rest, acc => by
      by_cases hsmall : jsLt (jsAbs (impedance c s)) (JS.fin eps30) = true
      · simp [seriesCompliance, hsmall]
      · have hb : jsLt (jsAbs (impedance c s)) (JS.fin eps30) = false :=
          Bool.not_eq_true _ |>.mp hsmall
        simp only [seriesCompliance, hb, if_false, Bool.false_eq_true,
          List.map_cons, List.any_cons, Bool.false_or, List.foldr_cons]
        rw [seriesCompliance_eq s rest (jsAdd acc (jsDiv (JS.fin 1) (impedance c s)))]
        by_cases hany : (rest.map (fun c => impedance c s)).any
            (fun z => jsLt (jsAbs z) (JS.fin eps30)) = true
        · rw [if_pos hany, if_pos hany]
        · rw [if_neg hany, if_neg hany, jsAdd_assoc]

/-- Closed form of the parallel accumulation loop. -/
theorem parallelSum_eq (s : ℚ) :
    ∀ (l : List Node) (acc : JS),
      parallelSum l s acc
        = jsAdd acc ((l.map (fun c => impedance c s)).foldr jsAdd (JS.fin 0))
  | [], acc => by
      simp [parallelSum, jsAdd_zero_right]
  | c :: rest, acc => by
      simp only [parallelSum, List.map_cons, List.foldr_cons]
      rw [parallelSum_eq s rest (jsAdd acc (impedance c s)), jsAdd_assoc]

/-- C5: the impedance evaluator agrees with the spec's reference definition on
every node and every frequency. -/
theorem claimC5 (n : Node) (s : ℚ) : impedance n s = specImpedance n s := by
  cases n with
  | spring E => simp [impedance, specImpedance]
  | dashpot eta => simp [impedance, specImpedance]
  | series children =>
      have ih : ∀ c ∈ children, impedance c s = specImpedance c s := fun c _ =>
        claimC5 c s
      have hmap : children.attach.map (fun c => specImpedance c.1 s)
          = children.map (fun c => impedance c s) := by
        rw [List.attach_map_val children (fun c => specImpedance c s)]
        exact (List.map_congr_left ih).symm
      rw [specImpedance, hmap]
      simp only [impedance]
      rw [seriesCompliance_eq]
      by_cases hany : (children.map (fun c => impedance c s)).any
          (fun z => jsLt (jsAbs z) (JS.fin eps30)) = true
      · rw [if_pos hany, if_pos hany]
      · rw [if_neg hany, if_neg hany, jsAdd_zero_left]
  | parallel children =>
      have ih : ∀ c ∈ children, impedance c s = specImpedance c s := fun c _ =>
        claimC5 c s
      have hmap : children.attach.map (fun c => specImpedance c.1 s)
          = children.map (fun c => impedance c s) := by
        rw [List.attach_map_val children (fun c => specImpedance c s)]
        exact (List.map_congr_left ih).symm
      rw [specImpedance, hmap]
      simp only [impedance]
      rw [parallelSum_eq, jsAdd_zero_left]
termination_by sizeOf n
decreasing_by all_goals
  simp_wf
  rename_i hmem
  have hsz := List.sizeOf_lt_of_mem hmem
  omega

/-! ### Claim C10 -/

theorem jsNonnegOrInf_add {a b : JS} (ha : jsNonnegOrInf a) (hb : jsNonnegOrInf b) :
    jsNonnegOrInf (jsAdd a b) := by
  rcases ha with ⟨qa, rfl, hqa⟩ | rfl <;> rcases hb with ⟨qb, rfl, hqb⟩ | rfl
  · exact Or.inl ⟨qa + qb, rfl, add_nonneg hqa hqb⟩
  · exact Or.inr rfl
  · exact Or.inr rfl
  · exact Or.inr rfl

/-- The series loop keeps a nonnegative finite accumulator (or aborts) when
every child impedance is nonnegative-or-infinite. -/
theorem seriesCompliance_nonneg (s : ℚ) :
    ∀ (l : List Node), (∀ c ∈ l, jsNonnegOrInf (impedance c s)) →
      ∀ a : ℚ, 0 ≤ a →
        seriesCompliance l s (JS.fin a) = none ∨
          ∃ b : ℚ, 0 ≤ b ∧ seriesCompliance l s (JS.fin a) = some (JS.fin b)
  | [], _, a, ha => Or.inr ⟨a, ha, rfl⟩
  | c :: rest, h, a, ha => by
      have hc : jsNonnegOrInf (impedance c s) := h c (List.mem_cons_self c rest)
      have hrest : ∀ x ∈ rest, jsNonnegOrInf (impedance x s) := fun x hx =>
        h x (List.mem_cons_of_mem _ hx)
      by_cases hsmall : jsLt (jsAbs (impedance c s)) (JS.fin eps30) = true
      · left
        simp [seriesCompliance, hsmall]
      · have hb : jsLt (jsAbs (impedance c s)) (JS.fin eps30) = false :=
          Bool.not_eq_true _ |>.mp hsmall
        rcases hc with ⟨q, hq, hq0⟩ | hinf
        · have hqne : q ≠ 0 := by
            intro h0
            rw [hq, h0] at hb
            simp [jsAbs, jsLt, eps30] at hb
          have hrec := seriesCompliance_nonneg s rest hrest (a + 1 / q)
            (add_nonneg ha (by positivity))
          simp only [seriesCompliance, hb, Bool.false_eq_true, if_false]
          rw [hq] at hb ⊢
          rw [jsDiv_fin _ _ hqne, jsAdd_fin]
          exact hrec
        · have hrec := seriesCompliance_nonneg s rest hrest (a + 0)
            (by simpa using ha)
          simp only [seriesCompliance, hb, Bool.false_eq_true, if_false]
          rw [hinf] at hb ⊢
          have : jsDiv (JS.fin 1) JS.inf = JS.fin 0 := rfl
          rw [this, jsAdd_fin]
          exact hrec

/-- The parallel loop preserves nonnegative-or-infinite values. -/
theorem parallelSum_nonneg (s : ℚ) :
    ∀ (l : List Node), (∀ c ∈ l, jsNonnegOrInf (impedance c s)) →
      ∀ z : JS, jsNonnegOrInf z → jsNonnegOrInf (parallelSum l s z)
  | [], _, z, hz => hz
  | c :: rest, h, z, hz => by
      have hc : jsNonnegOrInf (impedance c s) := h c (List.mem_cons_self c rest)
      have hrest : ∀ x ∈ rest, jsNonnegOrInf (impedance x s) := fun x hx =>
        h x (List.mem_cons_of_mem _ hx)
      simp only [parallelSum]
      exact parallelSum_nonneg s rest hrest _ (jsNonnegOrInf_add hz hc)

/-- C10: with strictly positive element parameters and `s > 0`, the impedance
of every tree is a nonnegative rational or `+Infinity`, never negative. -/
theorem claimC10 (n : Node) (s : ℚ) (hpos : posParams n = true) (hs : 0 < s) :
    jsNonnegOrInf (impedance n s) := by
  cases n with
  | spring E =>
      have hE : 0 < E := by
        simpa [posParams] using hpos
      exact Or.inl ⟨E, rfl, le_of_lt hE⟩
  | dashpot eta =>
      have he : 0 < eta := by
        simpa [posParams] using hpos
      exact Or.inl ⟨eta * s, rfl, le_of_lt (mul_pos he hs)⟩
  | series children =>
      have hch : ∀ c ∈ children, posParams c = true := by
        simpa [posParams, List.all_eq_true] using hpos
      have ih : ∀ c ∈ children, jsNonnegOrInf (impedance c s) := fun c hcmem =>
        claimC10 c s (hch c hcmem) hs
      simp only [impedance]
      rcases seriesCompliance_nonneg s children ih 0 le_rfl with hnone | ⟨b, hb0, hsome⟩
      · rw [hnone]
        exact Or.inl ⟨0, rfl, le_rfl⟩
      · rw [hsome]
        by_cases hb : JS.fin b = JS.fin 0
        · simp only [hb, if_pos rfl]
          exact Or.inr rfl
        · have hbne : b ≠ 0 := fun h0 => hb (by rw [h0])
          simp only [if_neg hb]
          rw [jsDiv_fin _ _ hbne]
          exact Or.inl ⟨1 / b, rfl, by positivity⟩
  | parallel children =>
      have hch : ∀ c ∈ children, posParams c = true := by
        simpa [posParams, List.all_eq_true] using hpos
      have ih : ∀ c ∈ children, jsNonnegOrInf (impedance c s) := fun c hcmem =>
        claimC10 c s (hch c hcmem) hs
      simp only [impedance]
      exact parallelSum_nonneg s children ih _ (Or.inl ⟨0, rfl, le_rfl⟩)
termination_by sizeOf n
decreasing_by all_goals
  simp_wf
  have h2 := List.sizeOf_lt_of_mem hcmem
  subst_vars
  simp only [Node.series.sizeOf_spec, Node.parallel.sizeOf_spec]
  omega

/-- Witness for C10: a concrete spring at `s = 1`. -/
theorem claimC10_witness : jsNonnegOrInf (impedance (Node.spring 1) 1) :=
  claimC10 (Node.spring 1) 1 (by simp [posParams]) one_pos

/-! ### Sampler lemmas -/

/-- With no removal time, a sampler step is exactly the regular point. -/
theorem sampleStep_none (R : ℚ → JS) (d : JS) (mag tMax : ℚ) (nPoints i : ℕ) :
    sampleStep R d mag tMax nPoints none i = [regularPoint R mag tMax nPoints none i] := rfl

/-- With no removal time, the regular point carries the base response. -/
theorem regularPoint_none (R : ℚ → JS) (mag tMax : ℚ) (nPoints i : ℕ) :
    regularPoint R mag tMax nPoints none i
      = { t := round6 ((i : ℚ) / (nPoints : ℚ) * tMax),
          value := jsRound6 (R ((i : ℚ) / (nPoints : ℚ) * tMax)), load := mag } := rfl

theorem flatMap_singleton_fun {α β : Type} (g : α → β) :
    ∀ l : List α, (l.flatMap fun i => [g i]) = l.map g
  | [] => rfl
  | a :: rest => by
      simp [List.flatMap_cons, flatMap_singleton_fun g rest]

/-- With `tRemoval = none` the sampler emits exactly the base series. -/
theorem sampleSeries_none (R : ℚ → JS) (d : JS) (mag tMax : ℚ) (nPoints : ℕ) :
    sampleSeries R d mag tMax nPoints none
      = (List.range (nPoints + 1)).map (fun (i : ℕ) =>
          ({ t := round6 ((i : ℚ) / (nPoints : ℚ) * tMax),
             value := jsRound6 (R ((i : ℚ) / (nPoints : ℚ) * tMax)),
             load := mag } : SampledPoint)) := by
  unfold sampleSeries
  have h : (sampleStep R d mag tMax nPoints none)
      = fun i => [regularPoint R mag tMax nPoints none i] := by
    funext i
    exact sampleStep_none R d mag tMax nPoints i
  rw [h, flatMap_singleton_fun]
  apply List.map_congr_left
  intro i _
  exact regularPoint_none R mag tMax nPoints i

/-! ### Claim C8 -/

/-- C8: with `tRemoval = null` both samplers emit exactly `nPoints+1` points,
the `i`-th carrying the rounded grid time `(i/nPoints)·tMax` and the rounded
base response, with no injected synthetic points. -/
theorem claimC8 (m : Node) (tMax : ℚ) (n : ℕ) (σ0 ε0 : ℚ) :
    computeCreep m tMax n σ0 none
      = (List.range (n + 1)).map (fun (i : ℕ) =>
          ({ t := round6 ((i : ℚ) / (n : ℚ) * tMax),
             value := jsRound6 (creepAtTime m ((i : ℚ) / (n : ℚ) * tMax) σ0),
             load := σ0 } : SampledPoint)) ∧
    computeRelaxation m tMax n ε0 none
      = (List.range (n + 1)).map (fun (i : ℕ) =>
          ({ t := round6 ((i : ℚ) / (n : ℚ) * tMax),
             value := jsRound6 (relaxAtTime m ((i : ℚ) / (n : ℚ) * tMax) ε0),
             load := ε0 } : SampledPoint)) ∧
    (computeCreep m tMax n σ0 none).length = n + 1 ∧
    (computeRelaxation m tMax n ε0 none).length = n + 1 := by
  have hc : computeCreep m tMax n σ0 none
      = (List.range (n + 1)).map (fun (i : ℕ) =>
          ({ t := round6 ((i : ℚ) / (n : ℚ) * tMax),
             value := jsRound6 (creepAtTime m ((i : ℚ) / (n : ℚ) * tMax) σ0),
             load := σ0 } : SampledPoint)) :=
    sampleSeries_none _ _ _ _ _
  have hr : computeRelaxation m tMax n ε0 none
      = (List.range (n + 1)).map (fun (i : ℕ) =>
          ({ t := round6 ((i : ℚ) / (n : ℚ) * tMax),
             value := jsRound6 (relaxAtTime m ((i : ℚ) / (n : ℚ) * tMax) ε0),
             load := ε0 } : SampledPoint)) :=
    sampleSeries_none _ _ _ _ _
  refine ⟨hc, hr, ?_, ?_⟩
  · rw [hc]
    simp
  · rw [hr]
    simp

/-! ### Claim C3 -/

/-- C3: with an unload time `t1 ∈ (0, tMax)`, the regular grid point of step
`i` carries the rounded base response and full load when `t ≤ t1`, and the
rounded superposed value `R(t) − R(t−t1)` with zero load when `t > t1`, for
both samplers. -/
theorem claimC3 (m : Node) (tMax : ℚ) (n : ℕ) (σ0 ε0 t1 : ℚ) (i : ℕ)
    (ht0 : 0 < t1) (ht1 : t1 < tMax) :
    ((i : ℚ) / (n : ℚ) * tMax ≤ t1 →
      regularPoint (fun u => creepAtTime m u σ0) σ0 tMax n (some t1) i
        = { t := round6 ((i : ℚ) / (n : ℚ) * tMax),
            value := jsRound6 (creepAtTime m ((i : ℚ) / (n : ℚ) * tMax) σ0), load := σ0 } ∧
      regularPoint (fun u => relaxAtTime m u ε0) ε0 tMax n (some t1) i
        = { t := round6 ((i : ℚ) / (n : ℚ) * tMax),
            value := jsRound6 (relaxAtTime m ((i : ℚ) / (n : ℚ) * tMax) ε0), load := ε0 }) ∧
    (t1 < (i : ℚ) / (n : ℚ) * tMax →
      regularPoint (fun u => creepAtTime m u σ0) σ0 tMax n (some t1) i
        = { t := round6 ((i : ℚ) / (n : ℚ) * tMax),
            value := jsRound6 (jsSub (creepAtTime m ((i : ℚ) / (n : ℚ) * tMax) σ0)
              (creepAtTime m ((i : ℚ) / (n : ℚ) * tMax - t1) σ0)), load := 0 } ∧
      regularPoint (fun u => relaxAtTime m u ε0) ε0 tMax n (some t1) i
        = { t := round6 ((i : ℚ) / (n : ℚ) * tMax),
            value := jsRound6 (jsSub (relaxAtTime m ((i : ℚ) / (n : ℚ) * tMax) ε0)
              (relaxAtTime m ((i : ℚ) / (n : ℚ) * tMax - t1) ε0)), load := 0 }) := by
  constructor
  · intro hle
    have hnot : ¬ t1 < (i : ℚ) / (n : ℚ) * tMax := not_lt.mpr hle
    constructor
    · unfold regularPoint
      dsimp only
      rw [if_neg hnot]
    · unfold regularPoint
      dsimp only
      rw [if_neg hnot]
  · intro hgt
    constructor
    · unfold regularPoint
      dsimp only
      rw [if_pos hgt]
    · unfold regularPoint
      dsimp only
      rw [if_pos hgt]

/-- Witness for C3: step `0` of a unit grid with unload at `t1 = 1/2`. -/
theorem claimC3_witness :
    regularPoint (fun u => creepAtTime (Node.spring 1) u 1) 1 1 1 (some (1 / 2)) 0
      = { t := round6 (((0 : ℕ) : ℚ) / ((1 : ℕ) : ℚ) * 1),
          value := jsRound6 (creepAtTime (Node.spring 1) (((0 : ℕ) : ℚ) / ((1 : ℕ) : ℚ) * 1) 1),
          load := 1 } :=
  ((claimC3 (Node.spring 1) 1 1 1 1 (1 / 2) 0 (by norm_num) (by norm_num)).1
    (by norm_num)).1

/-! ### Claim C4 -/

/-- C4: at a step `i` that straddles the unload time
(`previous grid time < t1 ≤ current grid time`), the sampler emits exactly
the two synthetic points stamped `t1` — `(R(t1), full load)` then
`(R(t1) − instantDrop, 0)` — followed by the regular point exactly when the
grid time is at least half a grid step away from `t1`; such a step is
unique, and the instant drops used by the two samplers are probed at
`s = 1e15` (`σ0/Z`, `ε0·Z`). -/
theorem claimC4 (R : ℚ → JS) (d : JS) (mag tMax t1 : ℚ) (n i : ℕ)
    (hn : 0 < n) (hT : 0 < tMax) (ht0 : 0 < t1) (ht1 : t1 < tMax) (hi : 0 < i)
    (hprev : ((i : ℚ) - 1) / (n : ℚ) * tMax < t1)
    (hcur : t1 ≤ (i : ℚ) / (n : ℚ) * tMax) :
    sampleStep R d mag tMax n (some t1) i
      = { t := round6 t1, value := jsRound6 (R t1), load := mag } ::
        { t := round6 t1, value := jsRound6 (jsSub (R t1) d), load := 0 } ::
        (if |(i : ℚ) / (n : ℚ) * tMax - t1| < tMax / (n : ℚ) * (1 / 2) then []
         else [regularPoint R mag tMax n (some t1) i]) ∧
    (∀ j : ℕ, 0 < j → ((j : ℚ) - 1) / (n : ℚ) * tMax < t1 →
      t1 ≤ (j : ℚ) / (n : ℚ) * tMax → j = i) ∧
    (∀ (m : Node) (σ0 : ℚ), impedance m (10 ^ 15) ≠ JS.fin 0 →
      instantElasticStrain m σ0 = jsDiv (JS.fin σ0) (impedance m (10 ^ 15))) ∧
    (∀ (m : Node) (ε0 : ℚ),
      instantElasticStress m ε0 = jsMul (JS.fin ε0) (impedance m (10 ^ 15))) := by
  have hn' : (0 : ℚ) < (n : ℚ) := by exact_mod_cast hn
  refine ⟨?_, ?_, ?_, fun m ε0 => rfl⟩
  · have hcond : 0 < i ∧ ((i : ℚ) - 1) / (n : ℚ) * tMax < t1 ∧
        t1 ≤ (i : ℚ) / (n : ℚ) * tMax := ⟨hi, hprev, hcur⟩
    unfold sampleStep
    dsimp only
    rw [if_pos hcond]
    by_cases hhalf : |(i : ℚ) / (n : ℚ) * tMax - t1| < tMax / (n : ℚ) * (1 / 2)
    · rw [if_pos hhalf, if_pos hhalf]
    · rw [if_neg hhalf, if_neg hhalf]
  · intro j hj hjprev hjcur
    by_contra hne
    rcases Nat.lt_or_ge j i with hji | hij
    · have hle : (j : ℚ) ≤ (i : ℚ) - 1 := by
        have h1 : j + 1 ≤ i := hji
        have h2 : (j : ℚ) + 1 ≤ (i : ℚ) := by exact_mod_cast h1
        linarith
      have hgrid : (j : ℚ) / (n : ℚ) * tMax ≤ ((i : ℚ) - 1) / (n : ℚ) * tMax := by
        apply mul_le_mul_of_nonneg_right _ (le_of_lt hT)
        exact (div_le_div_right hn').mpr hle
      linarith [hjcur, hprev, hgrid]
    · have hij' : i < j := by omega
      have hle : (i : ℚ) ≤ (j : ℚ) - 1 := by
        have h1 : i + 1 ≤ j := hij'
        have h2 : (i : ℚ) + 1 ≤ (j : ℚ) := by exact_mod_cast h1
        linarith
      have hgrid : (i : ℚ) / (n : ℚ) * tMax ≤ ((j : ℚ) - 1) / (n : ℚ) * tMax := by
        apply mul_le_mul_of_nonneg_right _ (le_of_lt hT)
        exact (div_le_div_right hn').mpr hle
      linarith [hcur, hjprev, hgrid]
  · intro m σ0 hz
    unfold instantElasticStrain
    rw [if_neg hz]

/-- Witness for C4: the straddling step of a concrete grid
(`tMax = 2`, `nPoints = 2`, `t1 = 1/2`, step `i = 1`). -/
theorem claimC4_witness :
    sampleStep (fun _ => JS.fin 0) (JS.fin 0) 1 2 2 (some (1 / 2)) 1
      = { t := round6 (1 / 2), value := jsRound6 ((fun _ : ℚ => JS.fin 0) (1 / 2)),
          load := 1 } ::
        { t := round6 (1 / 2),
          value := jsRound6 (jsSub ((fun _ : ℚ => JS.fin 0) (1 / 2)) (JS.fin 0)),
          load := 0 } ::
        (if |((1 : ℕ) : ℚ) / ((2 : ℕ) : ℚ) * 2 - 1 / 2| < 2 / ((2 : ℕ) : ℚ) * (1 / 2)
         then []
         else [regularPoint (fun _ => JS.fin 0) 1 2 2 (some (1 / 2)) 1]) :=
  by
  have h := claimC4 (fun _ => JS.fin 0) (JS.fin 0) 1 2 (1 / 2) 2 1 ?_ ?_ ?_ ?_ ?_ ?_ ?_
  · exact h.1
  · norm_num
  · norm_num
  · norm_num
  · norm_num
  · norm_num
  · push_cast
    norm_num
  · push_cast
    norm_num

/-! ### Claim C9 -/

theorem round6_mono {a b : ℚ} (h : a ≤ b) : round6 a ≤ round6 b := by
  unfold round6
  have h2 : round (a * 10 ^ 6) ≤ round (b * 10 ^ 6) := by
    rw [round_eq, round_eq]
    apply Int.floor_mono
    nlinarith
  have h3 : ((round (a * 10 ^ 6) : ℤ) : ℚ) ≤ ((round (b * 10 ^ 6) : ℤ) : ℚ) := by
    exact_mod_cast h2
  gcongr

/-- The time stamp of a regular grid point. -/
theorem regularPoint_t (R : ℚ → JS) (mag tMax : ℚ) (n : ℕ) (r : Option ℚ) (i : ℕ) :
    (regularPoint R mag tMax n r i).t = round6 ((i : ℚ) / (n : ℚ) * tMax) := by
  unfold regularPoint
  cases r with
  | none => rfl
  | some t1 =>
      dsimp only
      by_cases h : t1 < (i : ℚ) / (n : ℚ) * tMax
      · rw [if_pos h]
      · rw [if_neg h]

/-- Every point emitted at step `i` is stamped between the rounded previous
grid time and the rounded current grid time. -/
theorem sampleStep_bounds (R : ℚ → JS) (d : JS) (mag tMax : ℚ) (n : ℕ)
    (r : Option ℚ) (i : ℕ) (hn : 0 < n) (hT : 0 ≤ tMax) :
    ∀ p ∈ sampleStep R d mag tMax n r i,
      round6 (((i : ℚ) - 1) / (n : ℚ) * tMax) ≤ p.t ∧
        p.t ≤ round6 ((i : ℚ) / (n : ℚ) * tMax) := by
  have hn' : (0 : ℚ) < (n : ℚ) := by exact_mod_cast hn
  have hgrid : ((i : ℚ) - 1) / (n : ℚ) * tMax ≤ (i : ℚ) / (n : ℚ) * tMax := by
    apply mul_le_mul_of_nonneg_right _ hT
    apply (div_le_div_iff_of_pos_right hn').mpr
    linarith
  have hreg : round6 (((i : ℚ) - 1) / (n : ℚ) * tMax)
        ≤ (regularPoint R mag tMax n r i).t ∧
      (regularPoint R mag tMax n r i).t ≤ round6 ((i : ℚ) / (n : ℚ) * tMax) := by
    rw [regularPoint_t]
    exact ⟨round6_mono hgrid, le_refl _⟩
  intro p hp
  unfold sampleStep at hp
  cases r with
  | none =>
      dsimp only at hp
      rw [List.mem_singleton] at hp
      subst hp
      exact hreg
  | some t1 =>
      dsimp only at hp
      by_cases hcond : 0 < i ∧ ((i : ℚ) - 1) / (n : ℚ) * tMax < t1 ∧
          t1 ≤ (i : ℚ) / (n : ℚ) * tMax
      · rw [if_pos hcond] at hp
        obtain ⟨hi, hprev, hcur⟩ := hcond
        have hb1 : round6 (((i : ℚ) - 1) / (n : ℚ) * tMax) ≤ round6 t1 :=
          round6_mono (le_of_lt hprev)
        have hb2 : round6 t1 ≤ round6 ((i : ℚ) / (n : ℚ) * tMax) := round6_mono hcur
        by_cases hhalf : |(i : ℚ) / (n : ℚ) * tMax - t1| < tMax / (n : ℚ) * (1 / 2)
        · rw [if_pos hhalf] at hp
          simp only [List.mem_cons, List.mem_singleton, List.not_mem_nil, or_false] at hp
          rcases hp with rfl | rfl
          · exact ⟨hb1, hb2⟩
          · exact ⟨hb1, hb2⟩
        · rw [if_neg hhalf] at hp
          simp only [List.mem_cons, List.mem_singleton, List.not_mem_nil, or_false] at hp
          rcases hp with rfl | rfl | rfl
          · exact ⟨hb1, hb2⟩
          · exact ⟨hb1, hb2⟩
          · exact hreg
      · rw [if_neg hcond] at hp
        rw [List.mem_singleton] at hp
        subst hp
        exact hreg

/-- The points of a single step are emitted with nondecreasing time stamps. -/
theorem sampleStep_t_sorted (R : ℚ → JS) (d : JS) (mag tMax : ℚ) (n : ℕ)
    (r : Option ℚ) (i : ℕ) :
    List.Sorted (· ≤ ·) ((sampleStep R d mag tMax n r i).map SampledPoint.t) := by
  unfold sampleStep
  cases r with
  | none =>
      dsimp only
      simp
  | some t1 =>
      dsimp only
      by_cases hcond : 0 < i ∧ ((i : ℚ) - 1) / (n : ℚ) * tMax < t1 ∧
          t1 ≤ (i : ℚ) / (n : ℚ) * tMax
      · rw [if_pos hcond]
        obtain ⟨hi, hprev, hcur⟩ := hcond
        have hb2 : round6 t1 ≤ round6 ((i : ℚ) / (n : ℚ) * tMax) := round6_mono hcur
        by_cases hhalf : |(i : ℚ) / (n : ℚ) * tMax - t1| < tMax / (n : ℚ) * (1 / 2)
        · rw [if_pos hhalf]
          simp [List.sorted_cons]
        · rw [if_neg hhalf]
          simp only [List.map_cons, List.map_nil]
          apply List.sorted_cons.mpr
          refine ⟨?_, ?_⟩
          · intro b hb
            simp only [List.mem_cons, List.mem_singleton, List.not_mem_nil, or_false] at hb
            rcases hb with rfl | rfl
            · exact le_refl _
            · rw [regularPoint_t]
              exact hb2
          · apply List.sorted_cons.mpr
            refine ⟨?_, ?_⟩
            · intro b hb
              simp only [List.mem_singleton] at hb
              subst hb
              rw [regularPoint_t]
              exact hb2
            · simp
      · rw [if_neg hcond]
        simp

/-- The sampler loop produces nondecreasing time stamps over any prefix of
the grid. -/
theorem sampleSeries_sorted_aux (R : ℚ → JS) (d : JS) (mag tMax : ℚ) (n : ℕ)
    (r : Option ℚ) (hn : 0 < n) (hT : 0 ≤ tMax) :
    ∀ m : ℕ,
      List.Sorted (· ≤ ·)
        (((List.range m).flatMap (sampleStep R d mag tMax n r)).map SampledPoint.t)
  | 0 => by simp
  | m + 1 => by
      have ih := sampleSeries_sorted_aux R d mag tMax n r hn hT m
      have hn' : (0 : ℚ) < (n : ℚ) := by exact_mod_cast hn
      rw [List.range_succ, List.flatMap_append, List.map_append]
      apply List.pairwise_append.mpr
      refine ⟨ih, ?_, ?_⟩
      · simpa using sampleStep_t_sorted R d mag tMax n r m
      · intro a ha b hb
        rcases List.mem_map.mp ha with ⟨p, hp, rfl⟩
        rcases List.mem_flatMap.mp hp with ⟨j, hj, hpj⟩
        have hjm : j < m := List.mem_range.mp hj
        simp only [List.flatMap_cons, List.flatMap_nil, List.append_nil] at hb
        rcases List.mem_map.mp hb with ⟨q, hq, rfl⟩
        have hup := (sampleStep_bounds R d mag tMax n r j hn hT p hpj).2
        have hlo := (sampleStep_bounds R d mag tMax n r m hn hT q hq).1
        have hmid : (j : ℚ) / (n : ℚ) * tMax ≤ ((m : ℚ) - 1) / (n : ℚ) * tMax := by
          apply mul_le_mul_of_nonneg_right _ hT
          apply (div_le_div_iff_of_pos_right hn').mpr
          have : (j : ℚ) + 1 ≤ (m : ℚ) := by exact_mod_cast hjm
          linarith
        calc p.t ≤ round6 ((j : ℚ) / (n : ℚ) * tMax) := hup
          _ ≤ round6 (((m : ℚ) - 1) / (n : ℚ) * tMax) := round6_mono hmid
          _ ≤ q.t := hlo

/-- C9: for a positive grid (`nPoints ≥ 1`, `tMax > 0`) and any removal
setting, both samplers emit time-monotonic sequences. -/
theorem claimC9 (m : Node) (tMax : ℚ) (n : ℕ) (σ0 ε0 : ℚ) (r : Option ℚ)
    (hn : 0 < n) (hT : 0 < tMax) :
    List.Sorted (· ≤ ·) ((computeCreep m tMax n σ0 r).map SampledPoint.t) ∧
    List.Sorted (· ≤ ·) ((computeRelaxation m tMax n ε0 r).map SampledPoint.t) := by
  constructor
  · exact sampleSeries_sorted_aux _ _ _ _ _ _ hn (le_of_lt hT) (n + 1)
  · exact sampleSeries_sorted_aux _ _ _ _ _ _ hn (le_of_lt hT) (n + 1)

/-- Witness for C9: a concrete Maxwell-style run with unload at `t = 1/2`. -/
theorem claimC9_witness :
    List.Sorted (· ≤ ·)
      ((computeCreep (Node.spring 1) 1 1 1 (some (1 / 2))).map SampledPoint.t) ∧
    List.Sorted (· ≤ ·)
      ((computeRelaxation (Node.spring 1) 1 1 1 (some (1 / 2))).map SampledPoint.t) :=
  claimC9 (Node.spring 1) 1 1 1 1 (some (1 / 2)) one_pos one_pos

end Rheology